import Mathlib

/-!
Shallow embedding of the data layer and reconciliation logic of a browser
extension that overlays a project tree onto a chat application sidebar.

Embedded source: the persistent store (module GPMStorage in storage.js:
projects, chat map, quick prompts, settings, import and export), the
data-mutating prefix of the tree renderer (alias backfill and orphan
cleanup in gpmRenderTree), the center-zone branch of the project drop
handler installed by gpmCreateProjectRow, and the new-chat observer
state machine of gpmObserveNewChats (pending assignment and its expiry
sweep).

Modelling conventions:
- JavaScript objects used as string-keyed maps (the chat map) become
  association lists; an object update replaces the value of an existing
  key in place and appends a fresh key at the end, which matches the
  enumeration order of JavaScript object keys.
- Array.prototype.find followed by in-place mutation of the found
  element becomes the updateFirst combinator below.
- JavaScript truthiness on nullable strings ("" and null are falsy) is
  the strTruthy function below.
- Every store write goes through the helper named underscore-set in the
  source (storage.js lines 24-27), which also sends one
  GPM_STORAGE_UPDATED message.  Each store operation therefore returns
  the new store paired with the number of messages it sends; clearAll
  (storage.js lines 218-226) writes through chrome.storage.local.set
  directly and sends none.
-/

namespace GPM

/-- Chat-to-project mapping record, storage.js schema line 8:
projectId, alias, pinned. -/
structure ChatMapping where
  projectId : String
  alias_ : String
  pinned : Bool
deriving DecidableEq

/-- Project record, storage.js schema line 7.  The root-reorder branch of
the drop handler additionally stores an integer order key on root
projects; that branch is outside the embedded fragment, so the field is
omitted. -/
structure Project where
  id : String
  name : String
  icon : String
  color : String
  parentId : Option String
  children : List String
  chatIds : List String
  collapsed : Bool
deriving DecidableEq

/-- Quick prompt record, storage.js schema line 9. -/
structure QuickPrompt where
  id : String
  title : String
  content : String
  category : String
deriving DecidableEq

/-- Settings record, storage.js schema line 10. -/
structure Settings where
  lang : String
  theme : String
deriving DecidableEq

/-- The four persisted collections, as observed through the getters
(getProjects, getChatMap, getQuickPrompts, getSettings), which substitute
the default for a missing storage key. -/
structure Store where
  projects : List Project
  chatMap : List (String × ChatMapping)
  quickPrompts : List QuickPrompt
  settings : Settings
deriving DecidableEq

/-- Default settings, storage.js line 195. -/
def defaultSettings : Settings := { lang := "en", theme := "auto" }

/-- A store in which every collection is empty or defaulted. -/
def emptyStore : Store :=
  { projects := [], chatMap := [], quickPrompts := [], settings := defaultSettings }

/-- JavaScript truthiness of a nullable string: null and the empty string
are falsy, every other string is truthy. -/
def strTruthy : Option String → Bool
  | none => false
  | some s => !(s == "")

/-- Reading chatMap at a chat id: the value at the key, if present.
Association lists built by the operations below keep keys unique, but the
definition itself takes the first matching entry. -/
def lookupChat (cm : List (String × ChatMapping)) (c : String) : Option ChatMapping :=
  (cm.find? (fun e => e.1 == c)).map (fun e => e.2)

/-- Writing chatMap at a chat id: replace the value of an existing key in
place, otherwise append the new entry, as a JavaScript object update
does. -/
def setChat (cm : List (String × ChatMapping)) (c : String) (m : ChatMapping) :
    List (String × ChatMapping) :=
  if cm.any (fun e => e.1 == c) then
    cm.map (fun e => if e.1 == c then (c, m) else e)
  else cm ++ [(c, m)]

/-- Array.prototype.find followed by in-place mutation of the found
element: apply f to the first element whose id matches, keep the rest. -/
def updateFirst (ps : List Project) (pid : String) (f : Project → Project) : List Project :=
  match ps with
  | [] => []
  | p :: rest => if p.id == pid then f p :: rest else p :: updateFirst rest pid f

/-- getRootProjects, storage.js lines 98-100: the projects whose parentId
is falsy. -/
def getRootProjects (projects : List Project) : List Project :=
  projects.filter (fun p => !(strTruthy p.parentId))

/-- The record built by createProject, storage.js line 41. -/
def freshProject (id nm icon color : String) (parentId : Option String) : Project :=
  { id := id, name := nm, icon := icon, color := color, parentId := parentId,
    children := [], chatIds := [], collapsed := false }

/-- createProject, storage.js lines 38-51.  The source draws a fresh id
from uid(); here the id is passed explicitly.  The new record is pushed,
then, when the parentId argument is truthy, the first project with that
id (searched in the extended list) gains the new id in its children.
Returns the store and the number of GPM_STORAGE_UPDATED messages sent
(one, from saveProjects). -/
def createProject (s : Store) (id nm icon color : String) (parentId : Option String) :
    Store × Nat :=
  let project : Project := freshProject id nm icon color parentId
  let ps := s.projects ++ [project]
  let ps :=
    match parentId with
    | some pid =>
        if pid == "" then ps
        else updateFirst ps pid (fun par => { par with children := par.children ++ [id] })
    | none => ps
  ({ s with projects := ps }, 1)

/-- updateProject, storage.js lines 53-60: findIndex then Object.assign.
The partial-field merge is modelled by an arbitrary record transformer f.
When the id is not found the source returns null before saving, so no
message is sent. -/
def updateProject (s : Store) (id : String) (f : Project → Project) : Store × Nat :=
  match s.projects.find? (fun p => p.id == id) with
  | none => (s, 0)
  | some _ => ({ s with projects := updateFirst s.projects id f }, 1)

/-- collectDescendants, storage.js lines 67-75, the inner recursion of
deleteProject: the id itself, then the recursive collection of each
child.  An id with no matching project is a leaf.  The source recursion
is unbounded and terminates on acyclic data; the embedding carries
explicit fuel, and deleteProject passes enough fuel for any acyclic
collection. -/
def collectDescendants (ps : List Project) : Nat → String → List String
  | 0, pid => [pid]
  | fuel + 1, pid =>
    match ps.find? (fun p => p.id == pid) with
    | none => [pid]
    | some node => pid :: (node.children.map (collectDescendants ps fuel)).flatten

/-- deleteProject, storage.js lines 62-96: collect the descendant
closure, drop the chat mappings whose project falls in it, detach the
deleted id from the children of its parent (when the target exists and
its parentId is truthy), then drop the closure from the project list.
Sends two messages (saveProjects, saveChatMap). -/
def deleteProject (s : Store) (id : String) : Store × Nat :=
  let toDelete := collectDescendants s.projects (s.projects.length + 1) id
  let chatMap := s.chatMap.filter (fun e => !(toDelete.contains e.2.projectId))
  let ps1 :=
    match s.projects.find? (fun p => p.id == id) with
    | some target =>
        match target.parentId with
        | some pp =>
            if pp == "" then s.projects
            else updateFirst s.projects pp
              (fun par => { par with children := par.children.filter (fun c => !(c == id)) })
        | none => s.projects
    | none => s.projects
  ({ s with projects := ps1.filter (fun p => !(toDelete.contains p.id)),
            chatMap := chatMap }, 2)

/-- In-place removal of a chat id from the chatIds of a project record:
the mutation applied to the old owner in assignChat (storage.js line
122) and unassignChat (line 143). -/
def remChat (chatId : String) (p : Project) : Project :=
  { p with chatIds := p.chatIds.filter (fun c => !(c == chatId)) }

/-- In-place duplicate-free append of a chat id to the chatIds of a
project record: the mutation applied to the new owner in assignChat
(storage.js lines 129-131). -/
def pushChat (chatId : String) (p : Project) : Project :=
  if p.chatIds.contains chatId then p else { p with chatIds := p.chatIds ++ [chatId] }

/-- assignChat, storage.js lines 115-135: remove the chat from the
chatIds of the previously owning project (when a mapping exists), write
the new mapping preserving alias and pinned (with the JavaScript
or-defaults of line 125), then append the chat to the chatIds of the
first project with the new id unless already present.  Sends two
messages (saveProjects, saveChatMap). -/
def assignChat (s : Store) (chatId projectId : String) : Store × Nat :=
  let old := lookupChat s.chatMap chatId
  let ps1 :=
    match old with
    | some m0 => updateFirst s.projects m0.projectId (remChat chatId)
    | none => s.projects
  let newM : ChatMapping :=
    { projectId := projectId,
      alias_ := (old.map (fun m => m.alias_)).getD "",
      pinned := (old.map (fun m => m.pinned)).getD false }
  let cm1 := setChat s.chatMap chatId newM
  let ps2 := updateFirst ps1 projectId (pushChat chatId)
  ({ s with projects := ps2, chatMap := cm1 }, 2)

/-- unassignChat, storage.js lines 137-149: when a mapping exists, remove
the chat from the chatIds of its project and delete the mapping.  Both
collections are saved regardless, so two messages are always sent. -/
def unassignChat (s : Store) (chatId : String) : Store × Nat :=
  match lookupChat s.chatMap chatId with
  | some m =>
      ({ s with
          projects := updateFirst s.projects m.projectId (remChat chatId),
          chatMap := s.chatMap.filter (fun e => !(e.1 == chatId)) }, 2)
  | none => (s, 2)

/-- setChatAlias, storage.js lines 151-157: only saves (one message) when
the chat has a mapping. -/
def setChatAlias (s : Store) (chatId a : String) : Store × Nat :=
  if s.chatMap.any (fun e => e.1 == chatId) then
    let cm := s.chatMap.map (fun e => if e.1 == chatId then (e.1, { e.2 with alias_ := a }) else e)
    ({ s with chatMap := cm }, 1)
  else (s, 0)

/-- togglePinChat, storage.js lines 159-167: only saves (one message)
when the chat has a mapping.  The returned boolean of the source is
dropped. -/
def togglePinChat (s : Store) (chatId : String) : Store × Nat :=
  if s.chatMap.any (fun e => e.1 == chatId) then
    let cm := s.chatMap.map (fun e => if e.1 == chatId then (e.1, { e.2 with pinned := !e.2.pinned }) else e)
    ({ s with chatMap := cm }, 1)
  else (s, 0)

/-- saveQuickPrompt, storage.js lines 174-178.  The source draws a fresh
id from uid(); here it is passed explicitly.  One message. -/
def saveQuickPrompt (s : Store) (id title content category : String) : Store × Nat :=
  ({ s with quickPrompts :=
      s.quickPrompts ++ [{ id := id, title := title, content := content, category := category }] }, 1)

/-- deleteQuickPrompt, storage.js lines 180-184.  One message. -/
def deleteQuickPrompt (s : Store) (id : String) : Store × Nat :=
  ({ s with quickPrompts := s.quickPrompts.filter (fun p => !(p.id == id)) }, 1)

/-- updateQuickPrompt, storage.js lines 186-191: Object.assign on the
found prompt, modelled by a record transformer applied to the first
matching element; the collection is saved (one message) whether or not
the id was found. -/
def updateQuickPrompt (s : Store) (id : String) (f : QuickPrompt → QuickPrompt) : Store × Nat :=
  ({ s with quickPrompts :=
      s.quickPrompts.map (fun p => if p.id == id then f p else p) }, 1)

/-- saveSettings, storage.js lines 198-200.  One message. -/
def saveSettings (s : Store) (st : Settings) : Store × Nat :=
  ({ s with settings := st }, 1)

/-- A top-level key of the export blob: absent from the parsed JSON
object, bound to a falsy value (null in practice), or bound to a real
collection.  JavaScript arrays and objects are always truthy, so a bound
collection is truthy. -/
inductive JField (α : Type) where
  | absent
  | jnull
  | val (a : α)
deriving DecidableEq

/-- The parsed form of the export and import JSON blob, storage.js lines
203-216: one top-level key per collection.  JSON serialization of these
record types is faithful, so the embedding works on the parsed object. -/
structure Blob where
  gpm_projects : JField (List Project)
  gpm_chatMap : JField (List (String × ChatMapping))
  gpm_quickPrompts : JField (List QuickPrompt)
  gpm_settings : JField Settings

/-- exportAll, storage.js lines 203-208: all four collections, each
present (arrays and objects serialize to truthy values). -/
def exportAll (s : Store) : Blob :=
  { gpm_projects := .val s.projects,
    gpm_chatMap := .val s.chatMap,
    gpm_quickPrompts := .val s.quickPrompts,
    gpm_settings := .val s.settings }

/-- importAll, storage.js lines 210-216: each truthy key overwrites the
corresponding collection; absent or falsy keys leave it untouched.  One
message per key written. -/
def importAll (s : Store) (b : Blob) : Store × Nat :=
  let acc : Store × Nat := (s, 0)
  let acc := match b.gpm_projects with
    | .val v => ({ acc.1 with projects := v }, acc.2 + 1)
    | _ => acc
  let acc := match b.gpm_chatMap with
    | .val v => ({ acc.1 with chatMap := v }, acc.2 + 1)
    | _ => acc
  let acc := match b.gpm_quickPrompts with
    | .val v => ({ acc.1 with quickPrompts := v }, acc.2 + 1)
    | _ => acc
  let acc := match b.gpm_settings with
    | .val v => ({ acc.1 with settings := v }, acc.2 + 1)
    | _ => acc
  acc

/-- Whether an import-blob key is truthy, the test importAll applies to
each key. -/
def jTruthy {α : Type} : JField α → Bool
  | .val _ => true
  | _ => false

/-- Number of truthy keys of an import blob: exactly the writes that
importAll performs, each one going through the underscore-set helper
and therefore sending one GPM_STORAGE_UPDATED message. -/
def blobWrites (b : Blob) : Nat :=
  (if jTruthy b.gpm_projects then 1 else 0)
    + (if jTruthy b.gpm_chatMap then 1 else 0)
    + (if jTruthy b.gpm_quickPrompts then 1 else 0)
    + (if jTruthy b.gpm_settings then 1 else 0)

/-- clearAll, storage.js lines 218-226: resets the four collections (and
an auxiliary pinned-chats key outside the data model) through
chrome.storage.local.set directly, without the underscore-set helper, so
no GPM_STORAGE_UPDATED message is sent. -/
def clearAll (_s : Store) : Store × Nat :=
  ({ projects := [], chatMap := [], quickPrompts := [],
     settings := defaultSettings }, 0)

/-- Alias backfill loop of gpmRenderTree, storage.js lines 741-758: for
each sidebar link (chat id paired with its displayed, trimmed title), if
the chat has a mapping with a falsy alias and the title is nonempty and
differs from the id, the alias is set from the title. -/
def backfillAliases (cm : List (String × ChatMapping)) (links : List (String × String)) :
    List (String × ChatMapping) :=
  links.foldl
    (fun cm l =>
      match lookupChat cm l.1 with
      | some m =>
          if m.alias_ == "" ∧ ¬(l.2 = "") ∧ ¬(l.2 = l.1) then
            setChat cm l.1 { m with alias_ := l.2 }
          else cm
      | none => cm)
    cm

/-- Orphan cleanup loop of gpmRenderTree, storage.js lines 763-774:
iterate over a snapshot of the chat map entries; every entry whose chat
id is not visible in the sidebar is removed from the chatIds of its
project and deleted from the map. -/
def orphanSweep (ps : List Project) (cm : List (String × ChatMapping))
    (active : List String) : List Project × List (String × ChatMapping) :=
  cm.foldl
    (fun acc e =>
      if active.contains e.1 then acc
      else
        (updateFirst acc.1 e.2.projectId
           (fun p => { p with chatIds := p.chatIds.filter (fun i => !(i == e.1)) }),
         acc.2.filter (fun e2 => !(e2.1 == e.1))))
    (ps, cm)

/-- Data-mutating prefix of gpmRenderTree, storage.js lines 733-784:
alias backfill over the sidebar links, then — only when at least one
chat id is visible (the size guard on line 761) — the orphan cleanup.
The links argument carries the chat id and trimmed title of each parsed
sidebar link. -/
def gpmRenderTreeReconcile (s : Store) (links : List (String × String)) : Store :=
  let activeChatIds := links.map (fun l => l.1)
  let cm1 := backfillAliases s.chatMap links
  if activeChatIds.length > 0 then
    let swept := orphanSweep s.projects cm1 activeChatIds
    { s with projects := swept.1, chatMap := swept.2 }
  else
    { s with chatMap := cm1 }

/-- The isDescendant upward walk of the project drop handler, storage.js
lines 955-961: walk the parentId chain starting at childId; true when
the chain reaches parentId.  A null parentId stops the walk with false;
the source compares with strict equality first, so an empty-string
parentId (falsy) also stops the walk after the comparison.  The source
recursion is unbounded; the embedding carries fuel, and the caller
passes enough for any acyclic parent chain. -/
def isDescendant (ps : List Project) : Nat → String → String → Bool
  | 0, _, _ => false
  | fuel + 1, parentId, childId =>
    match ps.find? (fun pr => pr.id == childId) with
    | none => false
    | some p =>
        match p.parentId with
        | none => false
        | some pid =>
            if pid == parentId then true
            else if pid == "" then false
            else isDescendant ps fuel parentId pid

/-- Center-zone branch of the project drop handler, storage.js lines
945-981.  Guards: an empty (falsy) payload or a self-drop falls through
to the chat-drop path, which ignores a project payload; a drop onto a
descendant of the dragged project is rejected.  Otherwise the freshly
loaded project list is mutated: the dragged project is detached from the
children of its old parent and its parentId is set to the target.  The
push of the dragged id onto the children of the target (source line 980)
mutates the render-time copy of the target row object, not the freshly
loaded list that saveProjects then writes, so that push is absent from
the persisted store modelled here. -/
def gpmProjectRowDropCenter (s : Store) (droppedId targetId : String) : Store :=
  if droppedId == "" ∨ droppedId == targetId then s
  else if isDescendant s.projects (s.projects.length + 1) droppedId targetId then s
  else
    match s.projects.find? (fun p => p.id == droppedId) with
    | none => s
    | some dropped =>
        let ps :=
          match dropped.parentId with
          | some op =>
              if op == "" then s.projects
              else updateFirst s.projects op
                (fun par => { par with children := par.children.filter (fun c => !(c == droppedId)) })
          | none => s.projects
        let ps := updateFirst ps droppedId (fun p => { p with parentId := some targetId })
        { s with projects := ps }

/-- The in-memory pending assignment, storage.js line 1184: the chosen
project and the Date.now() timestamp stored in the field named
underscore-ts. -/
structure PendingAssignment where
  projectId : String
  ts : Nat
deriving DecidableEq

/-- State of the new-chat observer of gpmObserveNewChats: the pending
assignment (if any) and the auto-assignments performed so far, each a
chat id paired with the project it was assigned to. -/
structure ObsState where
  pending : Option PendingAssignment
  assigned : List (String × String)
deriving DecidableEq

/-- An event of the new-chat observer: a tick of the 5-second expiry
sweep (storage.js lines 1392-1399) carrying the current clock, or the
observation of a changed, fresh chat id in the navigation path
(storage.js lines 1365-1381) carrying the id and the clock at which it
was observed. -/
inductive ObsEvent where
  | sweep (now : Nat)
  | observe (chatId : String) (now : Nat)
deriving DecidableEq

/-- One step of the new-chat observer.  The sweep clears the pending
assignment when its timestamp is truthy (nonzero) and more than 120000
milliseconds old.  An observed fresh chat id consumes the pending
assignment, whatever its age, and records the auto-assignment; with no
pending assignment it only triggers a re-render. -/
def obsStep (st : ObsState) : ObsEvent → ObsState
  | .sweep now =>
      match st.pending with
      | some pa =>
          if !(pa.ts == 0) ∧ now - pa.ts > 120000 then { st with pending := none } else st
      | none => st
  | .observe cid _ =>
      match st.pending with
      | some pa => { pending := none, assigned := st.assigned ++ [(cid, pa.projectId)] }
      | none => st

/-- Run the new-chat observer over a sequence of events. -/
def obsRun (st : ObsState) (es : List ObsEvent) : ObsState :=
  es.foldl obsStep st

/-! Specification-side definitions, written from the specification text,
for stating the claims about the code above. -/

/-- Chat-mapping invariant as the specification states it: every mapping
refers to an existing project, that project holds the chat id exactly
once, and no project with a different id holds it. -/
def chatInvariant (s : Store) : Prop :=
  ∀ e ∈ s.chatMap,
    ∃ p ∈ s.projects, p.id = e.2.projectId ∧ p.chatIds.count e.1 = 1 ∧
      ∀ q ∈ s.projects, q.id ≠ e.2.projectId → e.1 ∉ q.chatIds

/-- Converse direction needed to make the invariant inductive: every
chat id held by some project has a mapping pointing back at that
project. -/
def chatsBacked (s : Store) : Prop :=
  ∀ q ∈ s.projects, ∀ c ∈ q.chatIds, ∃ e ∈ s.chatMap, e.1 = c ∧ e.2.projectId = q.id

/-- Well-formedness of the identifiers: project ids and chat-map keys
are duplicate free, as uid generation and JavaScript object keys
guarantee. -/
def storeWF (s : Store) : Prop :=
  (s.projects.map (fun p => p.id)).Nodup ∧ (s.chatMap.map (fun e => e.1)).Nodup

/-- Direct-child relation on project ids induced by the children
arrays: b is listed among the children of a project whose id is a. -/
def Child (ps : List Project) (a b : String) : Prop :=
  ∃ p ∈ ps, p.id = a ∧ b ∈ p.children

/-- Transitive descendant relation on project ids: the transitive
closure of the direct-child relation. -/
def Desc (ps : List Project) (a b : String) : Prop :=
  Relation.TransGen (Child ps) a b

/-- A project collection forming a tree (for the deleteProject claim):
ids are duplicate free and the children relation is acyclic and of
bounded depth, witnessed by a rank function that drops along every
child edge and is bounded by the number of projects. -/
def treeLike (ps : List Project) : Prop :=
  (ps.map (fun p => p.id)).Nodup ∧
  ∃ rank : String → Nat,
    (∀ p ∈ ps, rank p.id ≤ ps.length) ∧
    (∀ p ∈ ps, ∀ c ∈ p.children, rank c < rank p.id)

/-- Specification-side description of the parent detachment performed by
deleteProject: when the deleted id resolves to a project with a truthy
parentId, the project carrying that parent id loses the deleted id from
its children; every other project is left as is. -/
def specDetach (ps : List Project) (pid : String) (q : Project) : Project :=
  match ps.find? (fun p => p.id == pid) with
  | some target =>
      match target.parentId with
      | some pp =>
          if pp == "" then q
          else if q.id == pp then
            { q with children := q.children.filter (fun c => !(c == pid)) }
          else q
      | none => q
  | none => q

/-- Bool test used to state that every observation in a trace happens
strictly after a cutoff time. -/
def observedAfter (cutoff : Nat) : ObsEvent → Bool
  | .observe _ now => Nat.blt cutoff now
  | .sweep _ => true

/-! Concrete inputs used by the closed theorems below. -/

/-- A small populated store: one project owning one aliased chat, one
quick prompt, non-default settings. -/
def wProj : Project :=
  { id := "p", name := "P", icon := "i", color := "c", parentId := none,
    children := [], chatIds := ["c1"], collapsed := false }

/-- See wProj. -/
def wStore : Store :=
  { projects := [wProj],
    chatMap := [("c1", { projectId := "p", alias_ := "al", pinned := false })],
    quickPrompts := [{ id := "q1", title := "t", content := "x", category := "g" }],
    settings := { lang := "tr", theme := "dark" } }

/-- A project holding the chat id "c" in its chatIds although the chat
map has no entry for "c": a stray membership. -/
def strayProj : Project :=
  { id := "p", name := "P", icon := "i", color := "c", parentId := none,
    children := [], chatIds := ["c", "d"], collapsed := false }

/-- See strayProj. -/
def strayStore : Store :=
  { projects := [strayProj], chatMap := [], quickPrompts := [],
    settings := defaultSettings }

/-- Two root projects for the drop-handler evaluation. -/
def dropProjA : Project :=
  { id := "a", name := "A", icon := "i", color := "c", parentId := none,
    children := [], chatIds := [], collapsed := false }

/-- See dropProjA. -/
def dropProjB : Project :=
  { id := "b", name := "B", icon := "i", color := "c", parentId := none,
    children := [], chatIds := [], collapsed := false }

/-- See dropProjA. -/
def dropStore : Store :=
  { projects := [dropProjA, dropProjB], chatMap := [], quickPrompts := [],
    settings := defaultSettings }

/-- A three-project tree: root "a" with child "b", plus an unrelated
root "c", each owning one chat. -/
def treeProjA : Project :=
  { id := "a", name := "A", icon := "i", color := "c", parentId := none,
    children := ["b"], chatIds := ["x"], collapsed := false }

/-- See treeProjA. -/
def treeProjB : Project :=
  { id := "b", name := "B", icon := "i", color := "c", parentId := some "a",
    children := [], chatIds := ["y"], collapsed := false }

/-- See treeProjA. -/
def treeProjC : Project :=
  { id := "c", name := "C", icon := "i", color := "c", parentId := none,
    children := [], chatIds := ["z"], collapsed := false }

/-- See treeProjA. -/
def treeStore : Store :=
  { projects := [treeProjA, treeProjB, treeProjC],
    chatMap := [("x", { projectId := "a", alias_ := "", pinned := false }),
                ("y", { projectId := "b", alias_ := "", pinned := false }),
                ("z", { projectId := "c", alias_ := "", pinned := false })],
    quickPrompts := [], settings := defaultSettings }

/-- The record created by createProject for an unresolved empty-string
parent. -/
def unresolvedRec : Project :=
  { id := "n1", name := "N", icon := "I", color := "C", parentId := some "",
    children := [], chatIds := [], collapsed := false }

/-- Sweep ticks every 5000 ms from 0 through 120000, followed by a fresh
chat id observed at 120002 ms, after the 120-second deadline of a
pending assignment stamped at 1 ms but before the next sweep tick. -/
def pendingTrace : List ObsEvent :=
  ((List.range 25).map (fun k => ObsEvent.sweep (5000 * k))) ++
    [ObsEvent.observe "c2" 120002]

/-! Theorems. -/

/-- C6: exporting any store and importing the export into an empty store
reproduces all four collections exactly. -/
theorem exportAll_importAll_roundTrip (s : Store) :
    (importAll emptyStore (exportAll s)).1 = s := rfl

/-- C8: when no chat id is visible in the host sidebar, the render pass
leaves the store untouched: no mapping is removed and no chatIds list is
modified, because the orphan cleanup is guarded by the visible-chat
count. -/
theorem gpmRenderTree_empty_sidebar_noop (s : Store) :
    gpmRenderTreeReconcile s [] = s := rfl

/-- C10: a top-level import key bound to a falsy value (null) behaves
exactly like an absent key: the corresponding collection of the store is
left unchanged. -/
theorem importAll_null_keys_untouched (s : Store)
    (f1 : JField (List Project)) (f2 : JField (List (String × ChatMapping)))
    (f3 : JField (List QuickPrompt)) (f4 : JField Settings) :
    ((importAll s ⟨JField.jnull, f2, f3, f4⟩).1 = (importAll s ⟨JField.absent, f2, f3, f4⟩).1
      ∧ (importAll s ⟨JField.jnull, f2, f3, f4⟩).1.projects = s.projects)
    ∧ ((importAll s ⟨f1, JField.jnull, f3, f4⟩).1 = (importAll s ⟨f1, JField.absent, f3, f4⟩).1
      ∧ (importAll s ⟨f1, JField.jnull, f3, f4⟩).1.chatMap = s.chatMap)
    ∧ ((importAll s ⟨f1, f2, JField.jnull, f4⟩).1 = (importAll s ⟨f1, f2, JField.absent, f4⟩).1
      ∧ (importAll s ⟨f1, f2, JField.jnull, f4⟩).1.quickPrompts = s.quickPrompts)
    ∧ ((importAll s ⟨f1, f2, f3, JField.jnull⟩).1 = (importAll s ⟨f1, f2, f3, JField.absent⟩).1
      ∧ (importAll s ⟨f1, f2, f3, JField.jnull⟩).1.settings = s.settings) := by
  rcases f1 <;> rcases f2 <;> rcases f3 <;> rcases f4 <;>
    exact ⟨⟨rfl, rfl⟩, ⟨rfl, rfl⟩, ⟨rfl, rfl⟩, ⟨rfl, rfl⟩⟩

/-- C1, counterexample: from a store satisfying the mapping invariant,
assignChat with a project id that matches no existing project ("g"
here) produces a store violating it — the new mapping dangles. -/
theorem assignChat_dangling_breaks_invariant :
    chatInvariant emptyStore ∧ (∀ q ∈ emptyStore.projects, q.id ≠ "g") ∧
    ¬ chatInvariant (assignChat emptyStore "c" "g").1 := by
  unfold chatInvariant
  decide

/-- C3, evaluation at the failing input: dropping project "a" onto the
center zone of project "b" persists the new parentId of "a" but leaves
the children of "b" empty — the push onto the children of the target is
lost because it mutates the render-time copy. -/
theorem gpmProjectRowDropCenter_eval :
    ((gpmProjectRowDropCenter dropStore "a" "b").projects.find?
        (fun p => p.id == "a")).map (fun p => p.parentId) = some (some "b")
    ∧ ((gpmProjectRowDropCenter dropStore "a" "b").projects.find?
        (fun p => p.id == "b")).map (fun p => p.children) = some [] := by decide

/-- C4, counterexample: a pending assignment for "p1" stamped at 1 ms,
sweep ticks every 5 s through 120000 ms, and a fresh chat id observed at
120002 ms — after the 120-second deadline but before the next sweep
tick.  The chat is still auto-assigned to "p1". -/
theorem pending_observe_after_timeout_assigned :
    pendingTrace.all (observedAfter 120001) = true ∧
    (obsRun { pending := some { projectId := "p1", ts := 1 }, assigned := [] }
        pendingTrace).assigned = [("c2", "p1")] := by decide

/-- C5, counterexample: clearAll completes its write (the populated
store is reset to the defaulted empty collections) yet sends zero
GPM_STORAGE_UPDATED messages, unlike every other mutating operation. -/
theorem clearAll_sends_no_message :
    (clearAll wStore).1 = emptyStore ∧ (clearAll wStore).2 = 0 := by decide

/-- C7, counterexample: on a store where the chat id "c" sits in the
chatIds of project "p" without a chat-map entry, assigning "c" to the
existing project "p" twice does not equal assigning it once: the second
call moves "c" from the front to the back of the chatIds. -/
theorem assignChat_not_idempotent_on_stray :
    (∃ pr ∈ strayStore.projects, pr.id = "p") ∧
    (assignChat (assignChat strayStore "c" "p").1 "c" "p").1 ≠
      (assignChat strayStore "c" "p").1 := by decide

/-- With no pending assignment the observer assigns nothing, whatever
happens. -/
theorem obsRun_none (a : List (String × String)) (es : List ObsEvent) :
    obsRun ⟨none, a⟩ es = ⟨none, a⟩ := by
  induction es with
  | nil => rfl
  | cons e es ih =>
      cases e with
      | sweep now => simpa [obsRun, obsStep] using ih
      | observe cid now => simpa [obsRun, obsStep] using ih

/-- A trace containing no observation either keeps the pending
assignment untouched or clears it, and assigns nothing. -/
theorem obsRun_only_sweeps (pa : PendingAssignment) (a : List (String × String))
    (pre : List ObsEvent) (hpre : ∀ cid now, ObsEvent.observe cid now ∉ pre) :
    obsRun ⟨some pa, a⟩ pre = ⟨some pa, a⟩ ∨ obsRun ⟨some pa, a⟩ pre = ⟨none, a⟩ := by
  revert hpre
  induction pre with
  | nil => intro _; left; rfl
  | cons e es ih =>
      intro hpre
      cases e with
      | observe cid now => exact absurd (List.mem_cons_self _ _) (hpre cid now)
      | sweep now =>
          have hpre2 : ∀ cid now2, ObsEvent.observe cid now2 ∉ es :=
            fun cid now2 h => hpre cid now2 (List.mem_cons_of_mem _ h)
          have hstep : obsRun ⟨some pa, a⟩ (ObsEvent.sweep now :: es)
              = obsRun (obsStep ⟨some pa, a⟩ (ObsEvent.sweep now)) es := rfl
          by_cases hc : ((!(pa.ts == 0)) = true ∧ now - pa.ts > 120000)
          · right
            rw [hstep]
            simp only [obsStep, if_pos hc]
            exact obsRun_none a es
          · rw [hstep]
            simp only [obsStep, if_neg hc]
            exact ih hpre2

/-- C4, amended: a pending assignment for project p1 stamped at a
(positive) time T, with no fresh chat id observed before a sweep tick at
time t strictly later than T plus 120000 ms, is cleared by that sweep,
and no chat observed afterwards is auto-assigned: the assignment log
stays empty over the whole trace. -/
theorem pending_assignment_expiry (p1 : String) (T t : Nat) (pre post : List ObsEvent)
    (hpre : ∀ cid now, ObsEvent.observe cid now ∉ pre)
    (hT : 0 < T) (ht : T + 120000 < t) :
    (obsRun ⟨some ⟨p1, T⟩, []⟩ (pre ++ ObsEvent.sweep t :: post)).assigned = [] := by
  have hsplit : obsRun ⟨some ⟨p1, T⟩, []⟩ (pre ++ ObsEvent.sweep t :: post)
      = obsRun (obsStep (obsRun ⟨some ⟨p1, T⟩, []⟩ pre) (ObsEvent.sweep t)) post := by
    simp [obsRun, List.foldl_append, List.foldl_cons]
  have hc : ((!((T : Nat) == 0)) = true ∧ t - T > 120000) := by
    constructor
    · simp [Nat.pos_iff_ne_zero.mp hT]
    · omega
  rcases obsRun_only_sweeps ⟨p1, T⟩ [] pre hpre with h | h
  · rw [hsplit, h]
    have : obsStep ⟨some ⟨p1, T⟩, []⟩ (ObsEvent.sweep t) = ⟨none, []⟩ := by
      simp only [obsStep, if_pos hc]
    rw [this, obsRun_none]
  · rw [hsplit, h]
    have : obsStep ⟨none, []⟩ (ObsEvent.sweep t) = (⟨none, []⟩ : ObsState) := rfl
    rw [this, obsRun_none]

/-- C4, witness for the amended theorem at a concrete trace. -/
theorem pending_assignment_expiry_witness :
    (∀ cid now, ObsEvent.observe cid now ∉ [ObsEvent.sweep 5000]) ∧
    0 < 7 ∧ 7 + 120000 < 130000 ∧
    (obsRun ⟨some ⟨"p1", 7⟩, []⟩
        ([ObsEvent.sweep 5000] ++ ObsEvent.sweep 130000 ::
          [ObsEvent.observe "c9" 140000])).assigned = [] := by
  have hpre : ∀ cid now, ObsEvent.observe cid now ∉ [ObsEvent.sweep 5000] := by
    intro cid now h
    simp at h
  exact ⟨hpre, by decide, by decide,
    pending_assignment_expiry "p1" 7 130000 [ObsEvent.sweep 5000]
      [ObsEvent.observe "c9" 140000] hpre (by decide) (by decide)⟩

/-- C9, counterexample: createProject with the empty-string parentId —
which matches no existing project — yields a record whose parentId is
non-null and yet is returned by getRootProjects, because the empty
string is falsy. -/
theorem createProject_empty_parent_is_root :
    (∀ q ∈ emptyStore.projects, q.id ≠ "") ∧
    (createProject emptyStore "n1" "N" "I" "C" (some "")).1.projects = [unresolvedRec] ∧
    unresolvedRec ∈ getRootProjects
      (createProject emptyStore "n1" "N" "I" "C" (some "")).1.projects ∧
    unresolvedRec.parentId ≠ none := by decide

/-- updateFirst leaves a list with no matching id unchanged. -/
theorem updateFirst_no_match (ps : List Project) (pid : String) (f : Project → Project)
    (h : ∀ q ∈ ps, ¬(q.id = pid)) : updateFirst ps pid f = ps := by
  induction ps with
  | nil => rfl
  | cons r rest ih =>
      have hr : (r.id == pid) = false := by
        simpa using h r (List.mem_cons_self _ _)
      simp only [updateFirst, hr, Bool.false_eq_true, if_false, List.cons.injEq, true_and]
      exact ih (fun q hq => h q (List.mem_cons_of_mem _ hq))

/-- Under duplicate-free ids, updateFirst is a pointwise map. -/
theorem updateFirst_eq_map (ps : List Project) (pid : String) (f : Project → Project)
    (h : (ps.map (fun p => p.id)).Nodup) :
    updateFirst ps pid f = ps.map (fun p => if p.id == pid then f p else p) := by
  induction ps with
  | nil => rfl
  | cons r rest ih =>
      rw [List.map_cons, List.nodup_cons] at h
      rcases h with ⟨hr, hrest⟩
      by_cases hre : (r.id == pid) = true
      · have hpid : pid = r.id := (eq_of_beq hre).symm
        have hmap : rest.map (fun p => if p.id == pid then f p else p) = rest := by
          calc rest.map (fun p => if p.id == pid then f p else p)
              = rest.map id := by
                apply List.map_congr_left
                intro q hq
                have hqid : q.id ≠ pid := by
                  subst hpid
                  intro hcon
                  exact hr (hcon ▸ List.mem_map_of_mem (fun p => p.id) hq)
                simp [hqid]
            _ = rest := List.map_id rest
        simp only [updateFirst, hre, if_true, List.map_cons, hmap]
      · have hre2 : (r.id == pid) = false := by simpa using hre
        simp only [updateFirst, hre2, Bool.false_eq_true, if_false, List.map_cons,
          ih hrest, List.cons.injEq, and_true]

/-- updateFirst preserves the id sequence whenever the update preserves
the id of the record it touches. -/
theorem updateFirst_map_id (ps : List Project) (pid : String) (f : Project → Project)
    (h : ∀ p, (f p).id = p.id) :
    (updateFirst ps pid f).map (fun p => p.id) = ps.map (fun p => p.id) := by
  induction ps with
  | nil => rfl
  | cons r rest ih =>
      by_cases hre : (r.id == pid) = true
      · simp only [updateFirst, hre, if_true, List.map_cons, h r]
      · have hre2 : (r.id == pid) = false := by simpa using hre
        simp only [updateFirst, hre2, Bool.false_eq_true, if_false, List.map_cons, ih]

/-- Members of a list with duplicate-free ids are determined by their
id. -/
theorem nodup_id_inj (ps : List Project) (h : (ps.map (fun p => p.id)).Nodup)
    (p q : Project) (hp : p ∈ ps) (hq : q ∈ ps) (hid : p.id = q.id) : p = q := by
  induction ps with
  | nil => cases hp
  | cons r rest ih =>
      rw [List.map_cons, List.nodup_cons] at h
      rcases h with ⟨hr, hrest⟩
      rcases List.mem_cons.mp hp with rfl | hp2
      · rcases List.mem_cons.mp hq with rfl | hq2
        · rfl
        · exact absurd (hid ▸ List.mem_map_of_mem (fun p => p.id) hq2) hr
      · rcases List.mem_cons.mp hq with rfl | hq2
        · exact absurd (hid ▸ List.mem_map_of_mem (fun p => p.id) hp2) hr
        · exact ih hrest hp2 hq2

/-- Removing c zeroes the count of c. -/
theorem count_filter_self (l : List String) (c : String) :
    (l.filter (fun i => !(i == c))).count c = 0 := by
  rw [List.count_eq_zero]
  intro hmem
  have h2 := (List.mem_filter.mp hmem).2
  simp at h2

/-- Removing c preserves the count of every other id. -/
theorem count_filter_ne (l : List String) (c x : String) (hx : ¬ x = c) :
    (l.filter (fun i => !(i == c))).count x = l.count x :=
  List.count_filter (by simp [hx])

/-- Appending c increments the count of c. -/
theorem count_concat_self (l : List String) (c : String) :
    (l ++ [c]).count c = l.count c + 1 := by
  simp [List.count_append]

/-- Appending c preserves the count of every other id. -/
theorem count_concat_ne (l : List String) (c x : String) (hx : ¬ x = c) :
    (l ++ [c]).count x = l.count x := by
  simp [List.count_append, List.count_singleton, Ne.symm hx]

/-- remChat keeps the id of the record. -/
theorem remChat_id (cid : String) (q : Project) : (remChat cid q).id = q.id := rfl

/-- pushChat keeps the id of the record. -/
theorem pushChat_id (cid : String) (q : Project) : (pushChat cid q).id = q.id := by
  unfold pushChat
  split <;> rfl

/-- remChat zeroes the count of the removed chat id. -/
theorem remChat_count_self (cid : String) (q : Project) :
    (remChat cid q).chatIds.count cid = 0 :=
  count_filter_self q.chatIds cid

/-- remChat preserves the count of every other chat id. -/
theorem remChat_count_other (cid x : String) (hx : ¬ x = cid) (q : Project) :
    (remChat cid q).chatIds.count x = q.chatIds.count x :=
  count_filter_ne q.chatIds cid x hx

/-- pushChat on a record free of the chat id yields count one. -/
theorem pushChat_count_self_zero (cid : String) (q : Project)
    (h : q.chatIds.count cid = 0) : (pushChat cid q).chatIds.count cid = 1 := by
  have hmem : cid ∉ q.chatIds := List.count_eq_zero.mp h
  unfold pushChat
  rw [if_neg (by simp [hmem])]
  simp only [count_concat_self, h]

/-- pushChat preserves the count of every other chat id. -/
theorem pushChat_count_other (cid x : String) (hx : ¬ x = cid) (q : Project) :
    (pushChat cid q).chatIds.count x = q.chatIds.count x := by
  unfold pushChat
  split
  · rfl
  · exact count_concat_ne q.chatIds cid x hx

/-- A successful chatMap lookup returns a stored entry. -/
theorem lookupChat_mem (cm : List (String × ChatMapping)) (c : String) (m : ChatMapping)
    (h : lookupChat cm c = some m) : (c, m) ∈ cm := by
  unfold lookupChat at h
  rcases ho : cm.find? (fun e => e.1 == c) with _ | e
  · rw [ho] at h
    cases h
  · rw [ho] at h
    have he := List.find?_some ho
    have hmm : e ∈ cm := List.mem_of_find?_eq_some ho
    have h2 : e.2 = m := by simpa using h
    have h1 : e.1 = c := by simpa using he
    rcases e with ⟨e1, e2⟩
    simp only at h1 h2
    rw [h1, h2] at hmm
    exact hmm

/-- A failed chatMap lookup means no entry carries the key. -/
theorem lookupChat_none (cm : List (String × ChatMapping)) (c : String)
    (h : lookupChat cm c = none) : ∀ e ∈ cm, ¬ e.1 = c := by
  unfold lookupChat at h
  rcases ho : cm.find? (fun e => e.1 == c) with _ | e
  · intro e he hec
    have h2 := List.find?_eq_none.mp ho e he
    simp [hec] at h2
  · rw [ho] at h
    cases h

/-- The freshly written entry is in the updated map. -/
theorem setChat_mem_self (cm : List (String × ChatMapping)) (c : String) (m : ChatMapping) :
    (c, m) ∈ setChat cm c m := by
  unfold setChat
  by_cases h : cm.any (fun e => e.1 == c) = true
  · rw [if_pos h]
    rcases List.any_eq_true.mp h with ⟨e, he, hec⟩
    have hmm := List.mem_map_of_mem
      (fun x : String × ChatMapping => if x.1 == c then (c, m) else x) he
    have hmm2 : (if (e.1 == c) = true then (c, m) else e) ∈
        List.map (fun x : String × ChatMapping => if x.1 == c then (c, m) else x) cm := hmm
    rw [if_pos hec] at hmm2
    exact hmm2
  · rw [if_neg h]
    exact List.mem_append.mpr (Or.inr (List.mem_singleton.mpr rfl))

/-- Every entry of the updated map keyed by the written key is the
written entry. -/
theorem setChat_mem_keyed (cm : List (String × ChatMapping)) (c : String) (m : ChatMapping)
    (e : String × ChatMapping) (he : e ∈ setChat cm c m) (hk : e.1 = c) : e = (c, m) := by
  unfold setChat at he
  by_cases h : cm.any (fun e => e.1 == c) = true
  · rw [if_pos h] at he
    rcases List.mem_map.mp he with ⟨e0, he0, himg⟩
    by_cases h0 : (e0.1 == c) = true
    · rw [if_pos h0] at himg
      exact himg.symm
    · rw [if_neg h0] at himg
      rw [← himg] at hk
      simp [hk] at h0
  · rw [if_neg h] at he
    rcases List.mem_append.mp he with he2 | he2
    · exfalso
      exact h (List.any_eq_true.mpr ⟨e, he2, by simp [hk]⟩)
    · exact List.mem_singleton.mp he2

/-- Entries with other keys are untouched by setChat. -/
theorem setChat_mem_other (cm : List (String × ChatMapping)) (c : String) (m : ChatMapping)
    (e : String × ChatMapping) (hk : ¬ e.1 = c) : e ∈ setChat cm c m ↔ e ∈ cm := by
  unfold setChat
  by_cases h : cm.any (fun e => e.1 == c) = true
  · rw [if_pos h]
    constructor
    · intro he
      rcases List.mem_map.mp he with ⟨e0, he0, himg⟩
      by_cases h0 : (e0.1 == c) = true
      · rw [if_pos h0] at himg
        rw [← himg] at hk
        simp at hk
      · rw [if_neg h0] at himg
        exact himg ▸ he0
    · intro he
      have h0 : (e.1 == c) = false := by simpa using hk
      have hmm := List.mem_map_of_mem
        (fun x : String × ChatMapping => if x.1 == c then (c, m) else x) he
      have hmm2 : (if (e.1 == c) = true then (c, m) else e) ∈
          List.map (fun x : String × ChatMapping => if x.1 == c then (c, m) else x) cm := hmm
      have himg : (if (e.1 == c) = true then (c, m) else e) = e := by simp [h0]
      rw [himg] at hmm2
      exact hmm2
  · rw [if_neg h]
    constructor
    · intro he
      rcases List.mem_append.mp he with he2 | he2
      · exact he2
      · exfalso
        have h1 := List.mem_singleton.mp he2
        rw [h1] at hk
        exact hk rfl
    · intro he
      exact List.mem_append.mpr (Or.inl he)

/-- setChat preserves duplicate-free keys. -/
theorem setChat_keys_nodup (cm : List (String × ChatMapping)) (c : String) (m : ChatMapping)
    (h : (cm.map (fun e => e.1)).Nodup) :
    ((setChat cm c m).map (fun e => e.1)).Nodup := by
  unfold setChat
  by_cases ha : cm.any (fun e => e.1 == c) = true
  · rw [if_pos ha, List.map_map]
    have hfun : ∀ e ∈ cm,
        ((fun e : String × ChatMapping => e.1) ∘
          (fun e : String × ChatMapping => if e.1 == c then (c, m) else e)) e
          = e.1 := by
      intro e _
      by_cases h0 : (e.1 == c) = true
      · simp [Function.comp, h0, eq_of_beq h0]
      · simp [Function.comp, h0]
    rw [List.map_congr_left hfun]
    exact h
  · rw [if_neg ha, List.map_append, List.nodup_append]
    refine ⟨h, List.nodup_singleton _, ?_⟩
    intro x hx hx2
    have hxc : x = c := by simpa using hx2
    rcases List.mem_map.mp hx with ⟨e, he, hex⟩
    exact ha (List.any_eq_true.mpr ⟨e, he, by simp [hex, hxc]⟩)

/-- Core of the assignChat invariant preservation: the removal phase is
abstracted as a pointwise transformation u1 that keeps ids, zeroes the
count of the assigned chat id everywhere, and preserves every other
count; the append phase then restores the full invariant for the new
mapping. -/
theorem assignChat_core (s : Store) (c p : String) (u1 : Project → Project)
    (ps1 : List Project) (newM : ChatMapping)
    (hnodupP : (s.projects.map (fun q => q.id)).Nodup)
    (hnodupC : (s.chatMap.map (fun e => e.1)).Nodup)
    (hinv : chatInvariant s) (hback : chatsBacked s)
    (hp : ∃ pr ∈ s.projects, pr.id = p)
    (hnewM : newM.projectId = p)
    (hps1 : ps1 = s.projects.map u1)
    (hid1 : ∀ q, (u1 q).id = q.id)
    (hzero : ∀ q ∈ s.projects, ((u1 q).chatIds.count c) = 0)
    (hpres : ∀ x, ¬ x = c → ∀ q ∈ s.projects, (u1 q).chatIds.count x = q.chatIds.count x) :
    chatInvariant
      { s with projects := updateFirst ps1 p (pushChat c),
               chatMap := setChat s.chatMap c newM }
    ∧ chatsBacked
      { s with projects := updateFirst ps1 p (pushChat c),
               chatMap := setChat s.chatMap c newM }
    ∧ storeWF
      { s with projects := updateFirst ps1 p (pushChat c),
               chatMap := setChat s.chatMap c newM } := by
  have hid1m : ps1.map (fun q => q.id) = s.projects.map (fun q => q.id) := by
    rw [hps1, List.map_map]
    exact List.map_congr_left (fun q _ => hid1 q)
  have hnodup1 : (ps1.map (fun q => q.id)).Nodup := by
    rw [hid1m]
    exact hnodupP
  have hcomp : updateFirst ps1 p (pushChat c)
      = s.projects.map (fun q => if (u1 q).id == p then pushChat c (u1 q) else u1 q) := by
    rw [updateFirst_eq_map ps1 p (pushChat c) hnodup1, hps1, List.map_map]
    rfl
  have hfid : ∀ q, (if (u1 q).id == p then pushChat c (u1 q) else u1 q).id = q.id := by
    intro q
    by_cases h0 : ((u1 q).id == p) = true
    · rw [if_pos h0, pushChat_id, hid1]
    · rw [if_neg h0, hid1]
  have htgt : ∀ q ∈ s.projects, q.id = p →
      (if (u1 q).id == p then pushChat c (u1 q) else u1 q).chatIds.count c = 1 := by
    intro q hq hqp
    have h0 : ((u1 q).id == p) = true := by simp [hid1, hqp]
    rw [if_pos h0]
    exact pushChat_count_self_zero c (u1 q) (hzero q hq)
  have hoth : ∀ q ∈ s.projects, ¬ q.id = p →
      (if (u1 q).id == p then pushChat c (u1 q) else u1 q).chatIds.count c = 0 := by
    intro q hq hqp
    have h0 : ¬ ((u1 q).id == p) = true := by simp [hid1, hqp]
    rw [if_neg h0]
    exact hzero q hq
  have hprescnt : ∀ x, ¬ x = c → ∀ q ∈ s.projects,
      (if (u1 q).id == p then pushChat c (u1 q) else u1 q).chatIds.count x
        = q.chatIds.count x := by
    intro x hx q hq
    by_cases h0 : ((u1 q).id == p) = true
    · rw [if_pos h0, pushChat_count_other c x hx]
      exact hpres x hx q hq
    · rw [if_neg h0]
      exact hpres x hx q hq
  rw [hcomp]
  refine ⟨?_, ?_, ?_, ?_⟩
  · intro e he
    simp only at he
    by_cases hk : e.1 = c
    · have he2 := setChat_mem_keyed s.chatMap c newM e he hk
      subst he2
      rcases hp with ⟨pr, hprmem, hprid⟩
      simp only
      refine ⟨if (u1 pr).id == p then pushChat c (u1 pr) else u1 pr,
        List.mem_map_of_mem _ hprmem, ?_, ?_, ?_⟩
      · rw [hfid pr, hprid, hnewM]
      · exact htgt pr hprmem hprid
      · intro q2 hq2 hq2id
        rcases List.mem_map.mp hq2 with ⟨q, hq, rfl⟩
        have hqp : ¬ q.id = p := by
          rw [hfid q, hnewM] at hq2id
          exact hq2id
        exact List.count_eq_zero.mp (hoth q hq hqp)
    · have hecm : e ∈ s.chatMap := (setChat_mem_other s.chatMap c newM e hk).mp he
      rcases hinv e hecm with ⟨p0, hp0mem, hp0id, hp0cnt, hp0oth⟩
      simp only
      refine ⟨if (u1 p0).id == p then pushChat c (u1 p0) else u1 p0,
        List.mem_map_of_mem _ hp0mem, ?_, ?_, ?_⟩
      · rw [hfid p0, hp0id]
      · rw [hprescnt e.1 hk p0 hp0mem]
        exact hp0cnt
      · intro q2 hq2 hq2id
        rcases List.mem_map.mp hq2 with ⟨q, hq, rfl⟩
        have hqid : ¬ q.id = e.2.projectId := by
          rw [hfid q] at hq2id
          exact hq2id
        have hold : e.1 ∉ q.chatIds := hp0oth q hq hqid
        rw [← List.count_eq_zero] at hold ⊢
        rw [hprescnt e.1 hk q hq]
        exact hold
  · intro q2 hq2 x hx
    simp only at hq2 hx ⊢
    rcases List.mem_map.mp hq2 with ⟨q, hq, rfl⟩
    by_cases hxc : x = c
    · subst hxc
      by_cases hqp : q.id = p
      · refine ⟨(x, newM), setChat_mem_self _ _ _, rfl, ?_⟩
        rw [hnewM, hfid q, hqp]
      · exfalso
        have h0 := hoth q hq hqp
        have h1 : (0:Nat) <
            (if (u1 q).id == p then pushChat x (u1 q) else u1 q).chatIds.count x :=
          List.count_pos_iff.mpr hx
        omega
    · have hcnt := hprescnt x hxc q hq
      have hxq : x ∈ q.chatIds := by
        have h1 : (0:Nat) <
            (if (u1 q).id == p then pushChat c (u1 q) else u1 q).chatIds.count x :=
          List.count_pos_iff.mpr hx
        rw [hcnt] at h1
        exact List.count_pos_iff.mp h1
      rcases hback q hq x hxq with ⟨e, hecm, he1, he2⟩
      have hk : ¬ e.1 = c := by
        rw [he1]
        exact hxc
      refine ⟨e, (setChat_mem_other s.chatMap c newM e hk).mpr hecm, he1, ?_⟩
      rw [he2, hfid q]
  · simp only
    rw [List.map_map]
    have h1 : s.projects.map
        ((fun q : Project => q.id) ∘
          (fun q => if (u1 q).id == p then pushChat c (u1 q) else u1 q))
        = s.projects.map (fun q => q.id) :=
      List.map_congr_left (fun q _ => hfid q)
    rw [h1]
    exact hnodupP
  · simp only
    exact setChat_keys_nodup s.chatMap c newM hnodupC

/-- C1, amended: on a duplicate-free store satisfying the two-sided
mapping invariant (every mapping points at an existing project holding
the chat exactly once and exclusively, and every chat id held by a
project is backed by its mapping), assignChat with an id of an existing
project preserves the invariant and the well-formedness.  With a
project id matching no project the invariant breaks (see the
counterexample). -/
theorem assignChat_preserves_invariant (s : Store) (c p : String)
    (hwf : storeWF s) (hinv : chatInvariant s) (hback : chatsBacked s)
    (hp : ∃ pr ∈ s.projects, pr.id = p) :
    chatInvariant (assignChat s c p).1 ∧ chatsBacked (assignChat s c p).1
      ∧ storeWF (assignChat s c p).1 := by
  obtain ⟨hnodupP, hnodupC⟩ := hwf
  rcases ho : lookupChat s.chatMap c with _ | m0
  · have hzero : ∀ q ∈ s.projects, ((fun q : Project => q) q).chatIds.count c = 0 := by
      intro q hq
      rw [List.count_eq_zero]
      intro hmem
      rcases hback q hq c hmem with ⟨e, hecm, he1, _⟩
      exact lookupChat_none s.chatMap c ho e hecm he1
    have hps1 : s.projects = s.projects.map (fun q => q) := by simp
    have h := assignChat_core s c p (fun q => q) s.projects
      { projectId := p, alias_ := "", pinned := false }
      hnodupP hnodupC hinv hback hp rfl hps1 (fun _ => rfl) hzero
      (fun x _ q hq => rfl)
    simp only [assignChat, ho]
    exact h
  · have hmem0 : (c, m0) ∈ s.chatMap := lookupChat_mem s.chatMap c m0 ho
    rcases hinv (c, m0) hmem0 with ⟨p0, hp0mem, hp0id, hp0cnt, hp0oth⟩
    have hps1 : updateFirst s.projects m0.projectId (remChat c)
        = s.projects.map (fun q => if q.id == m0.projectId then remChat c q else q) :=
      updateFirst_eq_map s.projects m0.projectId (remChat c) hnodupP
    have hid1 : ∀ q : Project,
        ((fun q => if q.id == m0.projectId then remChat c q else q) q).id = q.id := by
      intro q
      by_cases h0 : (q.id == m0.projectId) = true
      · simp only [h0, if_true]
        rfl
      · simp only [h0, Bool.false_eq_true, if_false]
    have hzero : ∀ q ∈ s.projects,
        ((fun q => if q.id == m0.projectId then remChat c q else q) q).chatIds.count c
          = 0 := by
      intro q hq
      by_cases h0 : (q.id == m0.projectId) = true
      · simp only [h0, if_true]
        exact remChat_count_self c q
      · simp only [h0, Bool.false_eq_true, if_false]
        rw [List.count_eq_zero]
        apply hp0oth q hq
        simpa using h0
    have hpres : ∀ x, ¬ x = c → ∀ q ∈ s.projects,
        ((fun q => if q.id == m0.projectId then remChat c q else q) q).chatIds.count x
          = q.chatIds.count x := by
      intro x hx q hq
      by_cases h0 : (q.id == m0.projectId) = true
      · simp only [h0, if_true]
        exact remChat_count_other c x hx q
      · simp only [h0, Bool.false_eq_true, if_false]
    have h := assignChat_core s c p
      (fun q => if q.id == m0.projectId then remChat c q else q)
      (updateFirst s.projects m0.projectId (remChat c))
      { projectId := p, alias_ := m0.alias_, pinned := m0.pinned }
      hnodupP hnodupC hinv hback hp rfl hps1 hid1 hzero hpres
    simp only [assignChat, ho]
    exact h

/-- C1, witness for the amended theorem on a populated store. -/
theorem assignChat_preserves_invariant_witness :
    storeWF wStore ∧ chatInvariant wStore ∧ chatsBacked wStore
    ∧ (∃ pr ∈ wStore.projects, pr.id = "p")
    ∧ (chatInvariant (assignChat wStore "c9" "p").1
        ∧ chatsBacked (assignChat wStore "c9" "p").1
        ∧ storeWF (assignChat wStore "c9" "p").1) := by
  have h1 : storeWF wStore := by
    unfold storeWF
    decide
  have h2 : chatInvariant wStore := by
    unfold chatInvariant
    decide
  have h3 : chatsBacked wStore := by
    unfold chatsBacked
    decide
  have h4 : ∃ pr ∈ wStore.projects, pr.id = "p" := by decide
  exact ⟨h1, h2, h3, h4, assignChat_preserves_invariant wStore "c9" "p" h1 h2 h3 h4⟩

/-- A chat map whose c-keyed entries all equal the written entry is a
fixed point of setChat. -/
theorem setChat_of_all_keyed (A : List (String × ChatMapping)) (c : String) (m : ChatMapping)
    (hany : A.any (fun e => e.1 == c) = true)
    (hkeyed : ∀ e ∈ A, e.1 = c → e = (c, m)) :
    setChat A c m = A := by
  unfold setChat
  rw [if_pos hany]
  have hpt : ∀ e ∈ A, (if e.1 == c then (c, m) else e) = e := by
    intro e he
    by_cases h0 : (e.1 == c) = true
    · rw [if_pos h0]
      exact (hkeyed e he (by simpa using h0)).symm
    · rw [if_neg h0]
  calc A.map (fun e => if e.1 == c then (c, m) else e)
      = A.map (fun e => e) := List.map_congr_left hpt
    _ = A := by simp

/-- Writing the same entry twice equals writing it once. -/
theorem setChat_setChat (cm : List (String × ChatMapping)) (c : String) (m : ChatMapping) :
    setChat (setChat cm c m) c m = setChat cm c m := by
  apply setChat_of_all_keyed
  · exact List.any_eq_true.mpr ⟨(c, m), setChat_mem_self cm c m, by simp⟩
  · intro e he hk
    exact setChat_mem_keyed cm c m e he hk

/-- Looking up a key whose entries all equal a given one yields it. -/
theorem lookupChat_eq_of_mem_keyed (A : List (String × ChatMapping)) (c : String)
    (m : ChatMapping) (hmem : (c, m) ∈ A)
    (hkeyed : ∀ e ∈ A, e.1 = c → e = (c, m)) : lookupChat A c = some m := by
  unfold lookupChat
  rcases ho : A.find? (fun e => e.1 == c) with _ | f
  · exfalso
    have h2 := List.find?_eq_none.mp ho (c, m) hmem
    simp at h2
  · have hf := List.find?_some ho
    have hf1 : f.1 = c := by simpa using hf
    have hfm := hkeyed f (List.mem_of_find?_eq_some ho) hf1
    rw [ho, hfm]
    rfl

/-- Looking up the freshly written key returns the written mapping. -/
theorem lookupChat_setChat (cm : List (String × ChatMapping)) (c : String) (m : ChatMapping) :
    lookupChat (setChat cm c m) c = some m :=
  lookupChat_eq_of_mem_keyed (setChat cm c m) c m (setChat_mem_self cm c m)
    (fun e he hk => setChat_mem_keyed cm c m e he hk)

/-- Filtering c out of a c-free list is the identity. -/
theorem filter_ne_of_not_mem (l : List String) (c : String) (hc : c ∉ l) :
    l.filter (fun i => !(i == c)) = l := by
  apply List.filter_eq_self.mpr
  intro a ha
  have : ¬ a = c := fun h => hc (h ▸ ha)
  simp [this]

/-- Pushing c onto a c-free record appends it. -/
theorem pushChat_of_not_mem (c : String) (q : Project) (hc : c ∉ q.chatIds) :
    pushChat c q = { q with chatIds := q.chatIds ++ [c] } := by
  unfold pushChat
  rw [if_neg (by simp [hc])]

/-- Removing and re-appending c on a record whose chatIds end in a
single c restores the record. -/
theorem pushChat_remChat_cancel (c : String) (r : Project) (l : List String)
    (hl : r.chatIds = l ++ [c]) (hc : c ∉ l) :
    pushChat c (remChat c r) = r := by
  have hfilter : (remChat c r).chatIds = l := by
    simp only [remChat, hl, List.filter_append]
    rw [filter_ne_of_not_mem l c hc]
    simp
  have hmem : c ∉ (remChat c r).chatIds := by
    rw [hfilter]
    exact hc
  rw [pushChat_of_not_mem c (remChat c r) hmem]
  have hx : (remChat c r).chatIds ++ [c] = r.chatIds := by rw [hfilter, hl]
  rw [hx]
  rfl

/-- Removing then duplicate-free re-appending c is the identity on any
duplicate-free list of projects in which every record with the target id
carries its chatIds as a c-free prefix followed by one c. -/
theorem push_rem_push_cancel (L : List Project) (c p : String)
    (hnodup : (L.map (fun q => q.id)).Nodup)
    (hshape : ∀ r ∈ L, r.id = p → ∃ l, r.chatIds = l ++ [c] ∧ c ∉ l) :
    updateFirst (updateFirst L p (remChat c)) p (pushChat c) = L := by
  have hidw1 : ∀ r : Project,
      ((fun r => if r.id == p then remChat c r else r) r).id = r.id := by
    intro r
    show (if (r.id == p) = true then remChat c r else r).id = r.id
    by_cases h0 : (r.id == p) = true
    · rw [if_pos h0]
      rfl
    · rw [if_neg h0]
  have hw1 : updateFirst L p (remChat c)
      = L.map (fun r => if r.id == p then remChat c r else r) :=
    updateFirst_eq_map L p (remChat c) hnodup
  have hnodup2 : ((L.map (fun r => if r.id == p then remChat c r else r)).map
      (fun q => q.id)).Nodup := by
    rw [List.map_map]
    have h1 : L.map ((fun q : Project => q.id) ∘
        (fun r => if r.id == p then remChat c r else r)) = L.map (fun q => q.id) :=
      List.map_congr_left (fun r _ => hidw1 r)
    rw [h1]
    exact hnodup
  have hw2 : updateFirst (L.map (fun r => if r.id == p then remChat c r else r)) p
        (pushChat c)
      = (L.map (fun r => if r.id == p then remChat c r else r)).map
        (fun r => if r.id == p then pushChat c r else r) :=
    updateFirst_eq_map _ p (pushChat c) hnodup2
  rw [hw1, hw2, List.map_map]
  have hpt : ∀ r ∈ L, ((fun r => if r.id == p then pushChat c r else r) ∘
      (fun r => if r.id == p then remChat c r else r)) r = r := by
    intro r hr
    by_cases h0 : (r.id == p) = true
    · have hp0 : r.id = p := by simpa using h0
      rcases hshape r hr hp0 with ⟨l, hl, hc⟩
      simp only [Function.comp, if_pos h0]
      have h1 : ((remChat c r).id == p) = true := by
        rw [remChat_id]
        exact h0
      rw [if_pos h1]
      exact pushChat_remChat_cancel c r l hl hc
    · simp only [Function.comp, if_neg h0]
  calc L.map ((fun r => if r.id == p then pushChat c r else r) ∘
      (fun r => if r.id == p then remChat c r else r))
      = L.map (fun r => r) := List.map_congr_left hpt
    _ = L := by simp

/-- Membership in an updateFirst image, under duplicate-free ids. -/
theorem mem_updateFirst (ps : List Project) (pid : String) (f : Project → Project)
    (hnodup : (ps.map (fun q => q.id)).Nodup) (r : Project)
    (hr : r ∈ updateFirst ps pid f) :
    ∃ q ∈ ps, r = if (q.id == pid) = true then f q else q := by
  rw [updateFirst_eq_map ps pid f hnodup] at hr
  rcases List.mem_map.mp hr with ⟨q, hq, hrq⟩
  exact ⟨q, hq, hrq.symm⟩

/-- The removed chat id is gone from the record. -/
theorem remChat_not_mem (cid : String) (q : Project) : cid ∉ (remChat cid q).chatIds := by
  intro h
  have h2 := (List.mem_filter.mp h).2
  simp at h2

/-- C7, amended: on a duplicate-free store in which every occurrence of
the chat id c inside some chatIds list is backed by the corresponding
chat-map entry, assigning c to an existing project p twice yields the
same store as assigning it once: the second call removes c from the
chatIds of p and re-appends it without a duplicate, and keeps the alias
and pinned of the mapping. -/
theorem assignChat_idempotent (s : Store) (c p : String)
    (hwf : storeWF s)
    (hok : ∀ q ∈ s.projects, c ∈ q.chatIds →
      ∃ e ∈ s.chatMap, e.1 = c ∧ e.2.projectId = q.id)
    (_hp : ∃ pr ∈ s.projects, pr.id = p) :
    (assignChat (assignChat s c p).1 c p).1 = (assignChat s c p).1 := by
  obtain ⟨hnodupP, hnodupC⟩ := hwf
  rcases ho : lookupChat s.chatMap c with _ | m0
  · have hstray : ∀ q ∈ s.projects, c ∉ q.chatIds := by
      intro q hq hmem
      rcases hok q hq hmem with ⟨e, hecm, he1, _⟩
      exact lookupChat_none s.chatMap c ho e hecm he1
    have hnodup1 : ((updateFirst s.projects p (pushChat c)).map (fun q => q.id)).Nodup := by
      rw [updateFirst_map_id s.projects p (pushChat c) (pushChat_id c)]
      exact hnodupP
    have hshape : ∀ r ∈ updateFirst s.projects p (pushChat c), r.id = p →
        ∃ l, r.chatIds = l ++ [c] ∧ c ∉ l := by
      intro r hr hrp
      rcases mem_updateFirst s.projects p (pushChat c) hnodupP r hr with ⟨q, hq, hrq⟩
      by_cases h0 : (q.id == p) = true
      · rw [if_pos h0] at hrq
        have hcq : c ∉ q.chatIds := hstray q hq
        refine ⟨q.chatIds, ?_, hcq⟩
        rw [hrq, pushChat_of_not_mem c q hcq]
      · rw [if_neg h0] at hrq
        exfalso
        apply h0
        subst hrq
        simp [hrp]
    have hproj := push_rem_push_cancel (updateFirst s.projects p (pushChat c)) c p
      hnodup1 hshape
    have hcm := setChat_setChat s.chatMap c
      { projectId := p, alias_ := "", pinned := false }
    simp only [assignChat, ho, Option.map_none', Option.getD_none, Option.map_some',
      Option.getD_some, lookupChat_setChat, hproj, hcm]
  · have hmem0 : (c, m0) ∈ s.chatMap := lookupChat_mem s.chatMap c m0 ho
    have hnodup_ps1 : ((updateFirst s.projects m0.projectId (remChat c)).map
        (fun q => q.id)).Nodup := by
      rw [updateFirst_map_id s.projects m0.projectId (remChat c) (remChat_id c)]
      exact hnodupP
    have hnodup1 : ((updateFirst (updateFirst s.projects m0.projectId (remChat c)) p
        (pushChat c)).map (fun q => q.id)).Nodup := by
      rw [updateFirst_map_id _ p (pushChat c) (pushChat_id c)]
      exact hnodup_ps1
    have hshape : ∀ r ∈ updateFirst (updateFirst s.projects m0.projectId (remChat c)) p
        (pushChat c), r.id = p → ∃ l, r.chatIds = l ++ [c] ∧ c ∉ l := by
      intro r hr hrp
      rcases mem_updateFirst _ p (pushChat c) hnodup_ps1 r hr with ⟨q1, hq1, hrq1⟩
      by_cases h0 : (q1.id == p) = true
      · rw [if_pos h0] at hrq1
        have hq1c : c ∉ q1.chatIds := by
          rcases mem_updateFirst s.projects m0.projectId (remChat c) hnodupP q1 hq1
            with ⟨q, hq, hq1q⟩
          by_cases h1 : (q.id == m0.projectId) = true
          · rw [if_pos h1] at hq1q
            rw [hq1q]
            exact remChat_not_mem c q
          · rw [if_neg h1] at hq1q
            subst hq1q
            intro hcq
            rcases hok q1 hq hcq with ⟨e, hecm, he1, he2⟩
            have hem0 : e = (c, m0) :=
              List.inj_on_of_nodup_map hnodupC hecm hmem0 (by rw [he1])
            rw [hem0] at he2
            have he2b : m0.projectId = q1.id := by simpa using he2
            exact h1 (by simp [he2b])
        refine ⟨q1.chatIds, ?_, hq1c⟩
        rw [hrq1, pushChat_of_not_mem c q1 hq1c]
      · rw [if_neg h0] at hrq1
        exfalso
        apply h0
        subst hrq1
        simp [hrp]
    have hproj := push_rem_push_cancel
      (updateFirst (updateFirst s.projects m0.projectId (remChat c)) p (pushChat c)) c p
      hnodup1 hshape
    have hcm := setChat_setChat s.chatMap c
      { projectId := p, alias_ := m0.alias_, pinned := m0.pinned }
    simp only [assignChat, ho, Option.map_some', Option.getD_some,
      lookupChat_setChat, hproj, hcm]

/-- C7, witness for the amended theorem on a populated store. -/
theorem assignChat_idempotent_witness :
    storeWF wStore
    ∧ (∀ q ∈ wStore.projects, "c9" ∈ q.chatIds →
        ∃ e ∈ wStore.chatMap, e.1 = "c9" ∧ e.2.projectId = q.id)
    ∧ (∃ pr ∈ wStore.projects, pr.id = "p")
    ∧ (assignChat (assignChat wStore "c9" "p").1 "c9" "p").1
        = (assignChat wStore "c9" "p").1 := by
  have h1 : storeWF wStore := by
    unfold storeWF
    decide
  have h2 : ∀ q ∈ wStore.projects, "c9" ∈ q.chatIds →
      ∃ e ∈ wStore.chatMap, e.1 = "c9" ∧ e.2.projectId = q.id := by decide
  have h3 : ∃ pr ∈ wStore.projects, pr.id = "p" := by decide
  exact ⟨h1, h2, h3, assignChat_idempotent wStore "c9" "p" h1 h2 h3⟩

/-- Soundness of collectDescendants: every collected id is the starting
id or a transitive descendant of it. -/
theorem collect_sound (ps : List Project) :
    ∀ fuel pid x, x ∈ collectDescendants ps fuel pid → x = pid ∨ Desc ps pid x := by
  intro fuel
  induction fuel with
  | zero =>
      intro pid x hx
      left
      simpa [collectDescendants] using hx
  | succ f ih =>
      intro pid x hx
      rcases hf : ps.find? (fun p => p.id == pid) with _ | node
      · simp [collectDescendants, hf] at hx
        exact Or.inl hx
      · simp only [collectDescendants, hf] at hx
        rcases List.mem_cons.mp hx with rfl | hx2
        · exact Or.inl rfl
        · rw [List.mem_flatten] at hx2
          rcases hx2 with ⟨l, hl, hxl⟩
          rcases List.mem_map.mp hl with ⟨cid, hcid, rfl⟩
          have hchild : Child ps pid cid := by
            refine ⟨node, List.mem_of_find?_eq_some hf, ?_, hcid⟩
            have h1 := List.find?_some hf
            simpa using h1
          rcases ih cid x hxl with rfl | hdesc
          · exact Or.inr (Relation.TransGen.single hchild)
          · exact Or.inr (Relation.TransGen.head hchild hdesc)

/-- The starting id is always collected. -/
theorem collect_self_mem (ps : List Project) (fuel : Nat) (pid : String) :
    pid ∈ collectDescendants ps fuel pid := by
  cases fuel with
  | zero => simp [collectDescendants]
  | succ f =>
      rcases hf : ps.find? (fun p => p.id == pid) with _ | node <;>
        simp [collectDescendants, hf]

/-- Completeness of collectDescendants: with a rank function witnessing
acyclicity and enough fuel, every transitive descendant is collected. -/
theorem collect_complete (ps : List Project) (rank : String → Nat)
    (hnodup : (ps.map (fun p => p.id)).Nodup)
    (hrank : ∀ p ∈ ps, ∀ cid ∈ p.children, rank cid < rank p.id) :
    ∀ fuel pid, (∀ p ∈ ps, p.id = pid → rank pid < fuel) →
      ∀ x, Desc ps pid x → x ∈ collectDescendants ps fuel pid := by
  intro fuel
  induction fuel with
  | zero =>
      intro pid hguard x hdesc
      exfalso
      rcases Relation.TransGen.head'_iff.mp hdesc with ⟨b, hchild, _⟩
      rcases hchild with ⟨pnode, hpmem, hpid, _⟩
      exact absurd (hguard pnode hpmem hpid) (Nat.not_lt_zero _)
  | succ f ih =>
      intro pid hguard x hdesc
      rcases hf : ps.find? (fun p => p.id == pid) with _ | node
      · exfalso
        rcases Relation.TransGen.head'_iff.mp hdesc with ⟨b, hchild, _⟩
        rcases hchild with ⟨pnode, hpmem, hpid, _⟩
        have h1 := List.find?_eq_none.mp hf pnode hpmem
        simp [hpid] at h1
      · have hnodemem := List.mem_of_find?_eq_some hf
        have hnodeid : node.id = pid := by simpa using List.find?_some hf
        rcases Relation.TransGen.head'_iff.mp hdesc with ⟨b, hchild, hrest⟩
        rcases hchild with ⟨pnode, hpmem, hpid, hbchild⟩
        have hpn : pnode = node :=
          List.inj_on_of_nodup_map hnodup hpmem hnodemem (by rw [hpid, hnodeid])
        have hbnode : b ∈ node.children := hpn ▸ hbchild
        have hrb : rank b < rank pid := by
          have h1 := hrank node hnodemem b hbnode
          rwa [hnodeid] at h1
        have hrpid : rank pid < f + 1 := hguard node hnodemem hnodeid
        have hxb : x ∈ collectDescendants ps f b := by
          rcases Relation.reflTransGen_iff_eq_or_transGen.mp hrest with rfl | htrans
          · exact collect_self_mem ps f x
          · apply ih b ?_ x htrans
            intro p2 _ _
            omega
        simp only [collectDescendants, hf]
        apply List.mem_cons_of_mem
        rw [List.mem_flatten]
        exact ⟨collectDescendants ps f b, List.mem_map_of_mem _ hbnode, hxb⟩

/-- With the fuel used by deleteProject, the collected set is exactly
the deleted project together with its transitive descendants. -/
theorem collect_iff (ps : List Project) (P : String)
    (ht : treeLike ps) (hP : ∃ pr ∈ ps, pr.id = P) :
    ∀ x, x ∈ collectDescendants ps (ps.length + 1) P ↔ (x = P ∨ Desc ps P x) := by
  obtain ⟨hnodup, rank, hbound, hrank⟩ := ht
  intro x
  constructor
  · exact collect_sound ps (ps.length + 1) P x
  · intro hx
    rcases hx with rfl | hdesc
    · exact collect_self_mem ps _ x
    · apply collect_complete ps rank hnodup hrank (ps.length + 1) P ?_ x hdesc
      intro p hp hpid
      have h1 := hbound p hp
      rw [hpid] at h1
      omega

/-- specDetach keeps the id of the record. -/
theorem specDetach_id (ps : List Project) (P : String) (q : Project) :
    (specDetach ps P q).id = q.id := by
  unfold specDetach
  rcases hf : ps.find? (fun p => p.id == P) with _ | target
  · simp only [hf]
  · simp only [hf]
    rcases hpar : target.parentId with _ | pp
    · simp only [hpar]
    · simp only [hpar]
      by_cases hpp : (pp == "") = true
      · rw [if_pos hpp]
      · rw [if_neg hpp]
        by_cases hq : (q.id == pp) = true
        · rw [if_pos hq]
        · rw [if_neg hq]

/-- The project list left by deleteProject: the parent detachment
(specDetach, pointwise) followed by the closure filter. -/
theorem deleteProject_projects_eq (s : Store) (P : String)
    (hnodup : (s.projects.map (fun p => p.id)).Nodup) :
    (deleteProject s P).1.projects
      = (s.projects.map (specDetach s.projects P)).filter
          (fun p =>
            !((collectDescendants s.projects (s.projects.length + 1) P).contains p.id)) := by
  rcases hf : s.projects.find? (fun p => p.id == P) with _ | target
  · have hid : s.projects.map (specDetach s.projects P) = s.projects := by
      calc s.projects.map (specDetach s.projects P)
          = s.projects.map (fun q => q) := by
            apply List.map_congr_left
            intro q _
            unfold specDetach
            simp only [hf]
        _ = s.projects := by simp
    simp only [deleteProject, hf, hid]
  · rcases hpar : target.parentId with _ | pp
    · have hid : s.projects.map (specDetach s.projects P) = s.projects := by
        calc s.projects.map (specDetach s.projects P)
            = s.projects.map (fun q => q) := by
              apply List.map_congr_left
              intro q _
              unfold specDetach
              simp only [hf, hpar]
          _ = s.projects := by simp
      simp only [deleteProject, hf, hpar, hid]
    · by_cases hpp : (pp == "") = true
      · have hid : s.projects.map (specDetach s.projects P) = s.projects := by
          calc s.projects.map (specDetach s.projects P)
              = s.projects.map (fun q => q) := by
                apply List.map_congr_left
                intro q _
                unfold specDetach
                simp only [hf, hpar]
                rw [if_pos hpp]
            _ = s.projects := by simp
        simp only [deleteProject, hf, hpar, hpp, if_true, hid]
      · have hdet : updateFirst s.projects pp
            (fun par => { par with children := par.children.filter (fun c => !(c == P)) })
            = s.projects.map (specDetach s.projects P) := by
          rw [updateFirst_eq_map s.projects pp _ hnodup]
          apply List.map_congr_left
          intro q _
          unfold specDetach
          simp only [hf, hpar]
          rw [if_neg hpp]
        have hpp2 : (pp == "") = false := by simpa using hpp
        simp only [deleteProject, hf, hpar, hpp2, Bool.false_eq_true, if_false, hdet]

/-- C2: deleteProject on a tree-shaped collection removes exactly the
deleted project and its transitive descendants from the project list,
removes exactly the chat mappings whose project falls in that closure,
detaches the deleted id from the children of its former parent, and
leaves every other project, every other mapping, the quick prompts and
the settings unchanged. -/
theorem deleteProject_spec (s : Store) (P : String)
    (ht : treeLike s.projects) (hP : ∃ pr ∈ s.projects, pr.id = P) :
    (∀ q ∈ (deleteProject s P).1.projects, ¬(q.id = P ∨ Desc s.projects P q.id))
    ∧ (∀ q ∈ s.projects, ¬(q.id = P ∨ Desc s.projects P q.id) →
        specDetach s.projects P q ∈ (deleteProject s P).1.projects)
    ∧ (∀ q ∈ (deleteProject s P).1.projects, ∃ q0 ∈ s.projects,
        ¬(q0.id = P ∨ Desc s.projects P q0.id) ∧ q = specDetach s.projects P q0)
    ∧ (∀ e : String × ChatMapping, e ∈ (deleteProject s P).1.chatMap ↔
        e ∈ s.chatMap ∧ ¬(e.2.projectId = P ∨ Desc s.projects P e.2.projectId))
    ∧ (deleteProject s P).1.quickPrompts = s.quickPrompts
    ∧ (deleteProject s P).1.settings = s.settings := by
  have hnodup := ht.1
  have hiff := collect_iff s.projects P ht hP
  have hprojeq := deleteProject_projects_eq s P hnodup
  have hcmeq : (deleteProject s P).1.chatMap
      = s.chatMap.filter (fun e =>
          !((collectDescendants s.projects (s.projects.length + 1) P).contains
            e.2.projectId)) := by
    rcases hf : s.projects.find? (fun p => p.id == P) with _ | target
    · simp only [deleteProject, hf]
    · rcases hpar : target.parentId with _ | pp
      · simp only [deleteProject, hf, hpar]
      · by_cases hpp : (pp == "") = true
        · simp only [deleteProject, hf, hpar, hpp, if_true]
        · have hpp2 : (pp == "") = false := by simpa using hpp
          simp only [deleteProject, hf, hpar, hpp2, Bool.false_eq_true, if_false]
  refine ⟨?_, ?_, ?_, ?_, ?_, ?_⟩
  · intro q hq
    rw [hprojeq] at hq
    rcases List.mem_filter.mp hq with ⟨hqmem, hqpred⟩
    rcases List.mem_map.mp hqmem with ⟨q0, hq0, rfl⟩
    have hnmem : (specDetach s.projects P q0).id
        ∉ collectDescendants s.projects (s.projects.length + 1) P := by
      simpa using hqpred
    rw [specDetach_id] at hnmem ⊢
    intro hcl
    exact hnmem ((hiff q0.id).mpr hcl)
  · intro q hq hncl
    rw [hprojeq]
    apply List.mem_filter.mpr
    refine ⟨List.mem_map_of_mem _ hq, ?_⟩
    have hnmem : q.id ∉ collectDescendants s.projects (s.projects.length + 1) P :=
      fun hmem => hncl ((hiff q.id).mp hmem)
    rw [specDetach_id]
    simpa using hnmem
  · intro q hq
    rw [hprojeq] at hq
    rcases List.mem_filter.mp hq with ⟨hqmem, hqpred⟩
    rcases List.mem_map.mp hqmem with ⟨q0, hq0, rfl⟩
    have hnmem : (specDetach s.projects P q0).id
        ∉ collectDescendants s.projects (s.projects.length + 1) P := by
      simpa using hqpred
    rw [specDetach_id] at hnmem
    exact ⟨q0, hq0, fun hcl => hnmem ((hiff q0.id).mpr hcl), rfl⟩
  · intro e
    rw [hcmeq]
    constructor
    · intro he
      rcases List.mem_filter.mp he with ⟨hemem, hepred⟩
      have hnmem : e.2.projectId
          ∉ collectDescendants s.projects (s.projects.length + 1) P := by
        simpa using hepred
      exact ⟨hemem, fun hcl => hnmem ((hiff e.2.projectId).mpr hcl)⟩
    · intro he
      apply List.mem_filter.mpr
      refine ⟨he.1, ?_⟩
      have hnmem : e.2.projectId
          ∉ collectDescendants s.projects (s.projects.length + 1) P :=
        fun hmem => he.2 ((hiff e.2.projectId).mp hmem)
      simpa using hnmem
  · rcases hf : s.projects.find? (fun p => p.id == P) with _ | target
    · simp only [deleteProject, hf]
    · rcases hpar : target.parentId with _ | pp
      · simp only [deleteProject, hf, hpar]
      · by_cases hpp : (pp == "") = true
        · simp only [deleteProject, hf, hpar, hpp, if_true]
        · have hpp2 : (pp == "") = false := by simpa using hpp
          simp only [deleteProject, hf, hpar, hpp2, Bool.false_eq_true, if_false]
  · rcases hf : s.projects.find? (fun p => p.id == P) with _ | target
    · simp only [deleteProject, hf]
    · rcases hpar : target.parentId with _ | pp
      · simp only [deleteProject, hf, hpar]
      · by_cases hpp : (pp == "") = true
        · simp only [deleteProject, hf, hpar, hpp, if_true]
        · have hpp2 : (pp == "") = false := by simpa using hpp
          simp only [deleteProject, hf, hpar, hpp2, Bool.false_eq_true, if_false]

/-- C2, witness: deleting the root of the two-node subtree in the
three-project store removes that root and its descendant, as the first
conjunct of the specification theorem states. -/
theorem deleteProject_spec_witness :
    treeLike treeStore.projects ∧ (∃ pr ∈ treeStore.projects, pr.id = "a") ∧
    ∀ q ∈ (deleteProject treeStore "a").1.projects,
      ¬(q.id = "a" ∨ Desc treeStore.projects "a" q.id) := by
  have ht : treeLike treeStore.projects := by
    refine ⟨by decide, fun x => if x = "b" then 0 else 1, by decide, by decide⟩
  have hP : ∃ pr ∈ treeStore.projects, pr.id = "a" := by decide
  exact ⟨ht, hP, (deleteProject_spec treeStore "a" ht hP).1⟩

/-- C5, amended: every mutating store operation other than clearAll
sends, on completion of each of its writes, a GPM_STORAGE_UPDATED
message: the unconditional writers send a fixed positive count, the
conditional writers (updateProject, setChatAlias, togglePinChat) send
one exactly when their guard lets the write happen, and importAll sends
exactly one message per truthy key, i.e. one per write it performs. -/
theorem mutating_ops_notify (s : Store) (b : Blob)
    (id nm icon color c p a ti co ca : String) (pid : Option String)
    (f : Project → Project) (g : QuickPrompt → QuickPrompt) (st : Settings) :
    (createProject s id nm icon color pid).2 = 1
    ∧ (deleteProject s id).2 = 2
    ∧ (assignChat s c p).2 = 2
    ∧ (unassignChat s c).2 = 2
    ∧ (saveQuickPrompt s id ti co ca).2 = 1
    ∧ (deleteQuickPrompt s id).2 = 1
    ∧ (updateQuickPrompt s id g).2 = 1
    ∧ (saveSettings s st).2 = 1
    ∧ (s.projects.any (fun q => q.id == id) = true → (updateProject s id f).2 = 1)
    ∧ (s.chatMap.any (fun e => e.1 == c) = true → (setChatAlias s c a).2 = 1)
    ∧ (s.chatMap.any (fun e => e.1 == c) = true → (togglePinChat s c).2 = 1)
    ∧ (importAll s b).2 = blobWrites b := by
  refine ⟨rfl, rfl, rfl, ?_, rfl, rfl, rfl, rfl, ?_, ?_, ?_, ?_⟩
  · rcases hl : lookupChat s.chatMap c with _ | m <;> simp [unassignChat, hl]
  · intro h
    have h2 : ∃ q ∈ s.projects, (q.id == id) = true := by simpa using h
    have h3 : (s.projects.find? (fun q => q.id == id)).isSome := List.find?_isSome.mpr h2
    rcases Option.isSome_iff_exists.mp h3 with ⟨q, hq⟩
    simp [updateProject, hq]
  · intro h
    simp [setChatAlias, h]
  · intro h
    simp [togglePinChat, h]
  · rcases b with ⟨b1, b2, b3, b4⟩
    rcases b1 <;> rcases b2 <;> rcases b3 <;> rcases b4 <;> rfl

/-- C5, witness for the amended theorem on a populated store. -/
theorem mutating_ops_notify_witness :
    (wStore.projects.any (fun q => q.id == "p") = true)
    ∧ (wStore.chatMap.any (fun e => e.1 == "c1") = true)
    ∧ (createProject wStore "p" "N" "I" "C" none).2 = 1
    ∧ (deleteProject wStore "p").2 = 2
    ∧ (assignChat wStore "c1" "p").2 = 2
    ∧ (unassignChat wStore "c1").2 = 2
    ∧ (saveQuickPrompt wStore "p" "T" "X" "G").2 = 1
    ∧ (deleteQuickPrompt wStore "p").2 = 1
    ∧ (updateQuickPrompt wStore "p" (fun q => q)).2 = 1
    ∧ (saveSettings wStore defaultSettings).2 = 1
    ∧ (updateProject wStore "p" (fun q => q)).2 = 1
    ∧ (setChatAlias wStore "c1" "A").2 = 1
    ∧ (togglePinChat wStore "c1").2 = 1
    ∧ (importAll wStore (exportAll wStore)).2 = blobWrites (exportAll wStore) := by
  obtain ⟨h1, h2, h3, h4, h5, h6, h7, h8, h9, h10, h11, h12⟩ :=
    mutating_ops_notify wStore (exportAll wStore) "p" "N" "I" "C" "c1" "p" "A" "T" "X" "G"
      none (fun q => q) (fun q => q) defaultSettings
  exact ⟨by decide, by decide, h1, h2, h3, h4, h5, h6, h7, h8,
    h9 (by decide), h10 (by decide), h11 (by decide), h12⟩

/-- C9, amended: for a truthy (non-empty) parentId that matches no
existing project, and a fresh id, createProject appends a record
carrying the unresolved parentId, leaves every existing children list
unchanged, and the record — its parentId being non-null and truthy — is
neither returned by getRootProjects nor listed as any child. -/
theorem createProject_unresolved_parent (s : Store) (id nm icon color pid : String)
    (hpid : ¬ pid = "") (hnomatch : ∀ q ∈ s.projects, ¬ q.id = pid)
    (hfresh : ∀ q ∈ s.projects, id ∉ q.children) (hfresh2 : ¬ id = pid) :
    (createProject s id nm icon color (some pid)).1.projects
      = s.projects ++ [freshProject id nm icon color (some pid)]
    ∧ getRootProjects (createProject s id nm icon color (some pid)).1.projects
      = getRootProjects s.projects
    ∧ ∀ q ∈ (createProject s id nm icon color (some pid)).1.projects, id ∉ q.children := by
  have hpid2 : (pid == "") = false := by simpa using hpid
  have hrec : ∀ q ∈ s.projects ++ [freshProject id nm icon color (some pid)],
      ¬ q.id = pid := by
    intro q hq
    rcases List.mem_append.mp hq with hq2 | hq2
    · exact hnomatch q hq2
    · rcases List.mem_singleton.mp hq2 with rfl
      exact hfresh2
  have hps : (createProject s id nm icon color (some pid)).1.projects
      = s.projects ++ [freshProject id nm icon color (some pid)] := by
    simp only [createProject, hpid2, Bool.false_eq_true, if_false]
    exact updateFirst_no_match _ _ _ hrec
  refine ⟨hps, ?_, ?_⟩
  · rw [hps]
    simp [getRootProjects, List.filter_append, strTruthy, freshProject, hpid2]
  · rw [hps]
    intro q hq
    rcases List.mem_append.mp hq with hq2 | hq2
    · exact hfresh q hq2
    · rcases List.mem_singleton.mp hq2 with rfl
      simp [freshProject]

/-- C9, witness for the amended theorem. -/
theorem createProject_unresolved_parent_witness :
    (¬ "ghost" = "") ∧ (∀ q ∈ wStore.projects, ¬ q.id = "ghost")
    ∧ (∀ q ∈ wStore.projects, "z" ∉ q.children) ∧ (¬ "z" = "ghost")
    ∧ ((createProject wStore "z" "N" "I" "C" (some "ghost")).1.projects
        = wStore.projects ++ [freshProject "z" "N" "I" "C" (some "ghost")]
      ∧ getRootProjects (createProject wStore "z" "N" "I" "C" (some "ghost")).1.projects
        = getRootProjects wStore.projects
      ∧ ∀ q ∈ (createProject wStore "z" "N" "I" "C" (some "ghost")).1.projects,
          "z" ∉ q.children) := by
  exact ⟨by decide, by decide, by decide, by decide,
    createProject_unresolved_parent wStore "z" "N" "I" "C" "ghost"
      (by decide) (by decide) (by decide) (by decide)⟩

end GPM
